import Mathlib

/-!
Shallow embedding of `chrjson-split` (src/main.go): a single-pass streaming
router that splits a JSONL file into one output file per declared chromosome
category plus a sentinel "unknown_chr" file.

Go maps are modelled as association lists with overwrite-on-insert semantics,
the file system as an association list from filename to byte contents, file
handles as natural-number ids, and buffered writers as pending byte buffers.
The third-party gjson lookup and the bufio scanner (external libraries, not
part of this repository) are modelled by their contracts: gjson as an
abstract parameter, the scanner as a list of byte lines with the 10 MB
token-size limit.
-/

namespace ChrSplit

/-- A record line: a sequence of bytes (one scanner token, newline excluded). -/
abbrev Line := List Nat

/-- The sentinel category (src/main.go: const UnknownChr = "unknown_chr"). -/
def UnknownChr : String := "unknown_chr"

/-- Maximum scan-buffer size (src/main.go: scanner.Buffer(buf, 10*1024*1024)). -/
def maxLineSize : Nat := 10 * 1024 * 1024

/-- Go map read m[k]: the value at key k, if present. -/
def mapLookup {α : Type} : List (String × α) → String → Option α
  | [], _ => none
  | (k2, v) :: rest, k => if k2 = k then some v else mapLookup rest k

/-- Go map assignment m[k] = v: overwrites the entry if present, else appends. -/
def mapInsert {α : Type} : List (String × α) → String → α → List (String × α)
  | [], k, v => [(k, v)]
  | (k2, v2) :: rest, k, v =>
    if k2 = k then (k, v) :: rest else (k2, v2) :: mapInsert rest k v

/-- Read of a Go map[string]bool: missing keys give the zero value false. -/
def lookupBool (m : List (String × Bool)) (k : String) : Bool :=
  (mapLookup m k).getD false

/-- The keys of an association-list map. -/
def mapKeys {α : Type} (m : List (String × α)) : List String := m.map Prod.fst

/-- Modelled from the spec: the result of the third-party gjson path lookup
(github.com/tidwall/gjson, absent from src/): `resExists` is false when the
record is not valid JSON or the path does not resolve, and `str` is the
value's canonical string form otherwise. -/
structure GjsonResult where
  resExists : Bool
  str : String

/-- An abstract gjson lookup: field path and record bytes to result. -/
abbrev Gjson := String → Line → GjsonResult

/-- The processor state built by NewChromosomeProcessor (src/main.go). -/
structure ChromosomeProcessor where
  inputFile : String
  pfx : String
  chrFieldName : String
  chrNames : List String
  chrSet : List (String × Bool)

/-- The chrSet construction in NewChromosomeProcessor: a map[string]bool with
a true entry per declared name. -/
def mkChrSet (chrNames : List String) : List (String × Bool) :=
  chrNames.foldl (fun m chr => mapInsert m chr true) []

/-- Constructor for ChromosomeProcessor (src/main.go NewChromosomeProcessor).
The field named prefix in the source is rendered pfx here. -/
def NewChromosomeProcessor (inputFile pfx chrFieldName : String)
    (chrNames : List String) : ChromosomeProcessor :=
  { inputFile := inputFile, pfx := pfx, chrFieldName := chrFieldName,
    chrNames := chrNames, chrSet := mkChrSet chrNames }

/-- Output file naming (src/main.go: fmt.Sprintf with percent-s underscore
percent-s dot jsonl). -/
def outFileName (pfx chr : String) : String := pfx ++ "_" ++ chr ++ ".jsonl"

/-- allChrs := append(cp.chrNames, UnknownChr) in InitializeOutputFiles. -/
def allChrs (cp : ChromosomeProcessor) : List String := cp.chrNames ++ [UnknownChr]

/-- The mutable run state: on-disk file contents, open file handles (by id),
the next fresh handle id, and the two category-keyed maps of the processor
(outputFiles: category to handle, outputWriters: category to pending buffer). -/
structure PState where
  fs : List (String × Line)
  openHandles : List Nat
  nextHandle : Nat
  outputFiles : List (String × Nat)
  outputWriters : List (String × Line)

/-- The state at the start of a run: fs0 already on disk, no handles, and the
empty maps made in NewChromosomeProcessor. -/
def initState (fs0 : List (String × Line)) : PState :=
  { fs := fs0, openHandles := [], nextHandle := 0,
    outputFiles := [], outputWriters := [] }

/-- ExtractChromosome (src/main.go): gjson.GetBytes on the configured field;
returns ("", false) when the result does not exist, else its string form. -/
def ExtractChromosome (g : Gjson) (cp : ChromosomeProcessor) (line : Line) :
    String × Bool :=
  let result := g cp.chrFieldName line
  if !result.resExists then ("", false) else (result.str, true)

/-- GetOutputWriter (src/main.go): the writer for chr if present in the map,
else the UnknownChr writer. Here it returns the key whose buffer is used. -/
def GetOutputWriter (ws : List (String × Line)) (chr : String) : String :=
  if (mapLookup ws chr).isSome then chr else UnknownChr

/-- The routing decision inlined in ProcessFile (src/main.go lines 115-120):
outputChr := UnknownChr; if found && cp.chrSet[chr] then outputChr = chr. -/
def routeKey (chrSet : List (String × Bool)) (chr : String) (found : Bool) :
    String :=
  if found && lookupBool chrSet chr then chr else UnknownChr

/-- writer.Write on a bufio.Writer of key k: append the bytes to its buffer. -/
def appendToWriter : List (String × Line) → String → Line → List (String × Line)
  | [], _, _ => []
  | (k2, buf) :: rest, k, bs =>
    if k2 = k then (k2, buf ++ bs) :: rest else (k2, buf) :: appendToWriter rest k bs

/-- writer.Flush for one category's writer: append its buffer to its file. -/
def flushOne (pfx : String) (fs : List (String × Line)) (p : String × Line) :
    List (String × Line) :=
  mapInsert fs (outFileName pfx p.1) ((mapLookup fs (outFileName pfx p.1)).getD [] ++ p.2)

/-- FlushAllWriters (src/main.go): flush every output writer. -/
def FlushAllWriters (cp : ChromosomeProcessor) (st : PState) : PState :=
  { st with fs := st.outputWriters.foldl (flushOne cp.pfx) st.fs,
            outputWriters := st.outputWriters.map (fun p => (p.1, ([] : Line))) }

/-- CloseAllFiles (src/main.go): FlushAllWriters, then file.Close() for every
handle in the outputFiles map. -/
def CloseAllFiles (cp : ChromosomeProcessor) (st : PState) : PState :=
  let st2 := FlushAllWriters cp st
  { st2 with openHandles :=
      st2.openHandles.filter (fun h => !(st2.outputFiles.any (fun p => p.2 == h))) }

/-- One iteration of the InitializeOutputFiles loop body on success:
os.Create (truncate the file, fresh open handle), bufio.NewWriterSize
(empty buffer), and the two map assignments. -/
def createFile (st : PState) (filename : String) (chr : String) : PState :=
  { fs := mapInsert st.fs filename []
    openHandles := st.openHandles ++ [st.nextHandle]
    nextHandle := st.nextHandle + 1
    outputFiles := mapInsert st.outputFiles chr st.nextHandle
    outputWriters := mapInsert st.outputWriters chr [] }

/-- The loop of InitializeOutputFiles over the category list; createOK says
which destination paths the file system lets os.Create succeed on. Returns
false at the first failing creation. -/
def initLoop (pfx : String) (createOK : String → Bool) :
    List String → PState → PState × Bool
  | [], st => (st, true)
  | chr :: rest, st =>
    if createOK (outFileName pfx chr) then
      initLoop pfx createOK rest (createFile st (outFileName pfx chr) chr)
    else (st, false)

/-- InitializeOutputFiles (src/main.go): create a file and writer for every
declared category plus UnknownChr; on a failing creation, CloseAllFiles and
surface the error. -/
def InitializeOutputFiles (createOK : String → Bool) (cp : ChromosomeProcessor)
    (st : PState) : PState × Bool :=
  match initLoop cp.pfx createOK (allChrs cp) st with
  | (st2, true) => (st2, true)
  | (st2, false) => (CloseAllFiles cp st2, false)

/-- The errors ProcessFile can surface. -/
inductive PErr where
  | createFailed
  | openInputFailed
  | lineTooLong
deriving DecidableEq

/-- The scan loop of ProcessFile: for each line (lineNum counts delivered
lines, blanks included), skip empty lines, extract, route, and write the line
plus one newline byte to the selected writer. A line longer than the scan
buffer stops the scanner with an error before it is delivered. -/
def processLines (cp : ChromosomeProcessor) (g : Gjson) :
    List Line → Nat → PState → PState × Option PErr
  | [], _, st => (st, none)
  | line :: rest, lineNum, st =>
    if maxLineSize < line.length then (st, some PErr.lineTooLong)
    else if line.length = 0 then processLines cp g rest (lineNum + 1) st
    else
      let er := ExtractChromosome g cp line
      let outputChr := routeKey cp.chrSet er.1 er.2
      let wkey := GetOutputWriter st.outputWriters outputChr
      processLines cp g rest (lineNum + 1)
        { st with outputWriters := appendToWriter st.outputWriters wkey (line ++ [10]) }

/-- ProcessFile (src/main.go): initialize outputs (aborting on failure),
open the input (inputOK models os.Open succeeding), scan and route every
line, then flush; the deferred CloseAllFiles runs on every post-init path. -/
def ProcessFile (cp : ChromosomeProcessor) (g : Gjson) (createOK : String → Bool)
    (inputOK : Bool) (input : List Line) (fs0 : List (String × Line)) :
    PState × Option PErr :=
  match InitializeOutputFiles createOK cp (initState fs0) with
  | (st1, false) => (st1, some PErr.createFailed)
  | (st1, true) =>
    if !inputOK then (CloseAllFiles cp st1, some PErr.openInputFailed)
    else
      match processLines cp g input 0 st1 with
      | (st2, some e) => (CloseAllFiles cp st2, some e)
      | (st2, none) => (CloseAllFiles cp (FlushAllWriters cp st2), none)

/-! Derived, verification-side definitions. -/

/-- The routing decision for a whole line: extract then routeKey. -/
def routeLine (cp : ChromosomeProcessor) (g : Gjson) (line : Line) : String :=
  let er := ExtractChromosome g cp line
  routeKey cp.chrSet er.1 er.2

/-- The non-blank input lines routed to category c, in input order. -/
def routedLines (cp : ChromosomeProcessor) (g : Gjson) (input : List Line)
    (c : String) : List Line :=
  input.filter (fun l => !(l.length == 0) && (routeLine cp g l == c))

/-- Terminate each line with one newline byte and concatenate. -/
def withNl (ls : List Line) : Line := ls.foldr (fun l acc => l ++ [10] ++ acc) []

/-- Whether f is one of this run's output file names. -/
def isOutFile (cp : ChromosomeProcessor) (f : String) : Bool :=
  (allChrs cp).any (fun c => outFileName cp.pfx c == f)

/-- The state effect of the scan loop on one delivered line. -/
def writeOne (cp : ChromosomeProcessor) (g : Gjson) (st : PState) (line : Line) :
    PState :=
  if line.length = 0 then st
  else
    let wkey := GetOutputWriter st.outputWriters (routeLine cp g line)
    { st with outputWriters := appendToWriter st.outputWriters wkey (line ++ [10]) }

/-- The state effect of scanning a list of lines (all within the size bound). -/
def applyWrites (cp : ChromosomeProcessor) (g : Gjson) (input : List Line)
    (st : PState) : PState :=
  input.foldl (writeOne cp g) st

/-- The state effect of the successful creations of the init loop. -/
def initInserts (pfx : String) (cs : List String) (st : PState) : PState :=
  cs.foldl (fun st c => createFile st (outFileName pfx c) c) st

/-! Association-map lemmas. -/

theorem mapLookup_mapInsert_self {α : Type} (m : List (String × α)) (k : String)
    (v : α) : mapLookup (mapInsert m k v) k = some v := by
  induction m with
  | nil => simp [mapInsert, mapLookup]
  | cons p rest ih =>
    obtain ⟨k2, v2⟩ := p
    by_cases h : k2 = k
    · simp [mapInsert, h, mapLookup]
    · simp [mapInsert, h, mapLookup, ih]

theorem mapLookup_mapInsert_ne {α : Type} (m : List (String × α)) (k k2 : String)
    (v : α) (h : k2 ≠ k) : mapLookup (mapInsert m k v) k2 = mapLookup m k2 := by
  have h' : ¬ (k = k2) := fun e => h e.symm
  induction m with
  | nil => simp [mapInsert, mapLookup, h']
  | cons p rest ih =>
    obtain ⟨k3, v3⟩ := p
    by_cases h3 : k3 = k
    · subst h3
      have h4 : ¬ (k3 = k2) := fun e => h (e ▸ rfl)
      simp [mapInsert, mapLookup, h', h4]
    · by_cases h4 : k3 = k2 <;> simp [mapInsert, mapLookup, h3, h4, h, ih]

theorem mapKeys_mapInsert {α : Type} (m : List (String × α)) (k : String) (v : α) :
    mapKeys (mapInsert m k v) =
      if k ∈ mapKeys m then mapKeys m else mapKeys m ++ [k] := by
  induction m with
  | nil => simp [mapInsert, mapKeys]
  | cons p rest ih =>
    obtain ⟨k2, v2⟩ := p
    by_cases h : k2 = k
    · subst h
      simp [mapInsert, mapKeys]
    · have h2 : ¬ (k = k2) := fun e => h e.symm
      have e1 : mapInsert ((k2, v2) :: rest) k v = (k2, v2) :: mapInsert rest k v := by
        simp [mapInsert, h]
      rw [e1]
      have e2 : mapKeys ((k2, v2) :: mapInsert rest k v) =
          k2 :: mapKeys (mapInsert rest k v) := rfl
      rw [e2, ih]
      by_cases hm : k ∈ List.map Prod.fst rest
      · simp [mapKeys, h2, hm]
      · simp [mapKeys, h2, hm]

theorem nodup_mapKeys_mapInsert {α : Type} (m : List (String × α)) (k : String)
    (v : α) (h : (mapKeys m).Nodup) : (mapKeys (mapInsert m k v)).Nodup := by
  rw [mapKeys_mapInsert]
  by_cases hm : k ∈ mapKeys m
  · simpa [hm] using h
  · simp [hm, List.nodup_append, h]

theorem mapLookup_mem {α : Type} (m : List (String × α)) (k : String) (v : α)
    (h : mapLookup m k = some v) : (k, v) ∈ m := by
  induction m with
  | nil => simp [mapLookup] at h
  | cons p rest ih =>
    obtain ⟨k2, v2⟩ := p
    by_cases h2 : k2 = k
    · subst h2
      simp [mapLookup] at h
      simp [h]
    · simp [mapLookup, h2] at h
      exact List.mem_cons_of_mem _ (ih h)

theorem any_snd_of_mapLookup (m : List (String × Nat)) (k : String) (h0 : Nat)
    (h : mapLookup m k = some h0) : (m.any (fun p => p.2 == h0)) = true := by
  refine List.any_eq_true.2 ⟨(k, h0), mapLookup_mem m k h0 h, by simp⟩

theorem mapLookup_appendToWriter_self (ws : List (String × Line)) (k : String)
    (bs : Line) :
    mapLookup (appendToWriter ws k bs) k = (mapLookup ws k).map (fun b => b ++ bs) := by
  induction ws with
  | nil => simp [appendToWriter, mapLookup]
  | cons p rest ih =>
    obtain ⟨k2, buf⟩ := p
    by_cases h : k2 = k
    · simp [appendToWriter, h, mapLookup]
    · simp [appendToWriter, h, mapLookup, ih]

theorem mapLookup_appendToWriter_ne (ws : List (String × Line)) (k k2 : String)
    (bs : Line) (h : k2 ≠ k) :
    mapLookup (appendToWriter ws k bs) k2 = mapLookup ws k2 := by
  induction ws with
  | nil => simp [appendToWriter]
  | cons p rest ih =>
    obtain ⟨k3, buf⟩ := p
    by_cases h3 : k3 = k
    · subst h3
      have h4 : ¬ (k3 = k2) := fun e => h (e ▸ rfl)
      simp [appendToWriter, mapLookup, h4]
    · by_cases h4 : k3 = k2 <;> simp [appendToWriter, mapLookup, h3, h4, h, ih]

theorem mapKeys_appendToWriter (ws : List (String × Line)) (k : String)
    (bs : Line) : mapKeys (appendToWriter ws k bs) = mapKeys ws := by
  induction ws with
  | nil => simp [appendToWriter]
  | cons p rest ih =>
    obtain ⟨k2, buf⟩ := p
    by_cases h : k2 = k <;> simp [appendToWriter, h, mapKeys] at ih ⊢ <;>
      simpa [mapKeys] using ih

theorem lookupBool_foldl_insert (ns : List String) (m0 : List (String × Bool))
    (k : String) :
    lookupBool (ns.foldl (fun m c => mapInsert m c true) m0) k =
      (if k ∈ ns then true else lookupBool m0 k) := by
  induction ns generalizing m0 with
  | nil => simp
  | cons c rest ih =>
    rw [List.foldl_cons, ih]
    by_cases h : k = c
    · subst h
      simp [lookupBool, mapLookup_mapInsert_self]
    · simp only [List.mem_cons, h, false_or]
      rw [lookupBool, mapLookup_mapInsert_ne _ _ _ _ h, ← lookupBool]

theorem lookupBool_mkChrSet (ns : List String) (k : String) :
    lookupBool (mkChrSet ns) k = true ↔ k ∈ ns := by
  rw [mkChrSet, lookupBool_foldl_insert]
  by_cases h : k ∈ ns <;> simp [h, lookupBool, mapLookup]

/-! Output file naming. -/

theorem outFileName_inj (pfx c1 c2 : String)
    (h : outFileName pfx c1 = outFileName pfx c2) : c1 = c2 := by
  have hd : ((pfx ++ "_").data ++ c1.data) ++ ".jsonl".data =
      ((pfx ++ "_").data ++ c2.data) ++ ".jsonl".data := by
    have := congrArg String.data h
    simpa [outFileName, List.append_assoc] using this
  have h1 := List.append_cancel_right hd
  exact String.ext (List.append_cancel_left h1)

/-! Characterization of the init loop. -/

theorem initInserts_cons (pfx : String) (c : String) (cs : List String)
    (st : PState) :
    initInserts pfx (c :: cs) st = initInserts pfx cs (createFile st (outFileName pfx c) c) := rfl

theorem initInserts_fs_lookup (pfx : String) (cs : List String) (st : PState)
    (f : String) :
    mapLookup (initInserts pfx cs st).fs f =
      if cs.any (fun c => outFileName pfx c == f) then some [] else mapLookup st.fs f := by
  induction cs generalizing st with
  | nil => simp [initInserts]
  | cons c rest ih =>
    rw [initInserts_cons, ih]
    by_cases hr : rest.any (fun c => outFileName pfx c == f) = true
    · simp [hr]
    · by_cases hc : outFileName pfx c = f
      · simp [hr, hc, createFile, mapLookup_mapInsert_self]
      · have hne : f ≠ outFileName pfx c := fun e => hc e.symm
        simp [hr, hc, createFile, mapLookup_mapInsert_ne _ _ _ _ hne]

theorem initInserts_writers_lookup (pfx : String) (cs : List String) (st : PState)
    (k : String) :
    mapLookup (initInserts pfx cs st).outputWriters k =
      if k ∈ cs then some [] else mapLookup st.outputWriters k := by
  induction cs generalizing st with
  | nil => simp [initInserts]
  | cons c rest ih =>
    rw [initInserts_cons, ih]
    by_cases hr : k ∈ rest
    · simp [hr]
    · by_cases hc : k = c
      · subst hc
        simp [hr, createFile, mapLookup_mapInsert_self]
      · simp [hr, hc, createFile, mapLookup_mapInsert_ne _ _ _ _ hc]

theorem initInserts_files_lookup (pfx : String) (cs : List String) (st : PState)
    (k : String) :
    (mapLookup (initInserts pfx cs st).outputFiles k).isSome = true ↔
      (k ∈ cs ∨ (mapLookup st.outputFiles k).isSome = true) := by
  induction cs generalizing st with
  | nil => simp [initInserts]
  | cons c rest ih =>
    rw [initInserts_cons, ih]
    by_cases hc : k = c
    · subst hc
      simp [createFile, mapLookup_mapInsert_self]
    · simp [createFile, mapLookup_mapInsert_ne _ _ _ _ hc, hc]

theorem initInserts_writers_keys_nodup (pfx : String) (cs : List String)
    (st : PState) (h : (mapKeys st.outputWriters).Nodup) :
    (mapKeys (initInserts pfx cs st).outputWriters).Nodup := by
  induction cs generalizing st with
  | nil => exact h
  | cons c rest ih =>
    rw [initInserts_cons]
    exact ih _ (nodup_mapKeys_mapInsert _ _ _ h)

/-- Every open handle is reachable from the outputFiles map, so that
CloseAllFiles releases it. -/
def handlesCovered (st : PState) : Prop :=
  ∀ h ∈ st.openHandles, ∃ k, mapLookup st.outputFiles k = some h

theorem handlesCovered_initInserts (pfx : String) (cs : List String) (st : PState)
    (hnd : cs.Nodup) (hfresh : ∀ c ∈ cs, mapLookup st.outputFiles c = none)
    (hcov : handlesCovered st) : handlesCovered (initInserts pfx cs st) := by
  induction cs generalizing st with
  | nil => exact hcov
  | cons c rest ih =>
    rw [initInserts_cons]
    refine ih _ (List.Nodup.of_cons hnd) ?_ ?_
    · intro b hb
      have hbc : b ≠ c := by
        intro e
        subst e
        exact (List.nodup_cons.1 hnd).1 hb
      rw [createFile]
      simpa [mapLookup_mapInsert_ne _ _ _ _ hbc] using hfresh b (List.mem_cons_of_mem _ hb)
    · intro h hh
      rw [createFile] at hh
      simp only [List.mem_append, List.mem_singleton] at hh
      rcases hh with hh | hh
      · obtain ⟨k, hk⟩ := hcov h hh
        have hkc : k ≠ c := by
          intro e
          rw [e] at hk
          rw [hfresh c (List.mem_cons_self c rest)] at hk
          exact Option.noConfusion hk
        exact ⟨k, by simpa [createFile, mapLookup_mapInsert_ne _ _ _ _ hkc] using hk⟩
      · subst hh
        exact ⟨c, by simp [createFile, mapLookup_mapInsert_self]⟩

theorem initLoop_ok (pfx : String) (createOK : String → Bool) (cs : List String)
    (st : PState) (h : ∀ c ∈ cs, createOK (outFileName pfx c) = true) :
    initLoop pfx createOK cs st = (initInserts pfx cs st, true) := by
  induction cs generalizing st with
  | nil => simp [initLoop, initInserts]
  | cons c rest ih =>
    rw [initLoop, if_pos (h c (List.mem_cons_self c rest)), initInserts_cons]
    exact ih _ (fun b hb => h b (List.mem_cons_of_mem _ hb))

theorem initLoop_false_decomp (pfx : String) (createOK : String → Bool)
    (cs : List String) (st st2 : PState)
    (h : initLoop pfx createOK cs st = (st2, false)) :
    ∃ pre c post, cs = pre ++ c :: post ∧
      (∀ a ∈ pre, createOK (outFileName pfx a) = true) ∧
      createOK (outFileName pfx c) = false ∧ st2 = initInserts pfx pre st := by
  induction cs generalizing st with
  | nil => simp [initLoop] at h
  | cons c rest ih =>
    rw [initLoop] at h
    by_cases hc : createOK (outFileName pfx c) = true
    · rw [if_pos hc] at h
      obtain ⟨pre, c2, post, e, hpre, hc2, hst⟩ := ih _ h
      refine ⟨c :: pre, c2, post, by rw [e]; rfl, ?_, hc2, by rw [hst, initInserts_cons]⟩
      intro a ha
      rcases List.mem_cons.1 ha with h1 | h1
      · subst h1; exact hc
      · exact hpre a h1
    · rw [if_neg hc] at h
      injection h with h1 h2
      refine ⟨[], c, rest, rfl, by simp, by simpa using hc, by rw [← h1]; rfl⟩

theorem initLoop_snd_false (pfx : String) (createOK : String → Bool)
    (cs : List String) (st : PState)
    (h : ∃ c ∈ cs, createOK (outFileName pfx c) = false) :
    (initLoop pfx createOK cs st).2 = false := by
  induction cs generalizing st with
  | nil => simp at h
  | cons c rest ih =>
    rw [initLoop]
    by_cases hc : createOK (outFileName pfx c) = true
    · rw [if_pos hc]
      obtain ⟨c2, hc2, hfail⟩ := h
      rcases List.mem_cons.1 hc2 with h1 | h1
      · subst h1; rw [hc] at hfail; exact Bool.noConfusion hfail
      · exact ih _ ⟨c2, h1, hfail⟩
    · rw [if_neg hc]

/-! Characterization of the scan loop. -/

theorem isSome_appendToWriter (ws : List (String × Line)) (k k2 : String)
    (bs : Line) :
    (mapLookup (appendToWriter ws k bs) k2).isSome = (mapLookup ws k2).isSome := by
  by_cases h : k2 = k
  · subst h
    rw [mapLookup_appendToWriter_self]
    cases mapLookup ws k2 <;> simp
  · rw [mapLookup_appendToWriter_ne _ _ _ _ h]

theorem writeOne_eq (cp : ChromosomeProcessor) (g : Gjson) (st : PState)
    (line : Line) (h0 : ¬ line.length = 0) :
    writeOne cp g st line =
      { st with outputWriters := appendToWriter st.outputWriters (GetOutputWriter st.outputWriters (routeLine cp g line)) (line ++ [10]) } := by
  rw [writeOne, if_neg h0]

theorem applyWrites_cons (cp : ChromosomeProcessor) (g : Gjson) (line : Line)
    (rest : List Line) (st : PState) :
    applyWrites cp g (line :: rest) st = applyWrites cp g rest (writeOne cp g st line) := rfl

theorem processLines_ok (cp : ChromosomeProcessor) (g : Gjson) (input : List Line)
    (n : Nat) (st : PState) (h : ∀ l ∈ input, l.length ≤ maxLineSize) :
    processLines cp g input n st = (applyWrites cp g input st, none) := by
  induction input generalizing n st with
  | nil => simp [processLines, applyWrites]
  | cons line rest ih =>
    have h1 : ¬ (maxLineSize < line.length) :=
      not_lt.2 (h line (List.mem_cons_self line rest))
    have ht : ∀ l ∈ rest, l.length ≤ maxLineSize :=
      fun l hl => h l (List.mem_cons_of_mem _ hl)
    rw [applyWrites_cons]
    by_cases h0 : line.length = 0
    · rw [processLines, if_neg h1, if_pos h0, writeOne, if_pos h0]
      exact ih _ _ ht
    · rw [processLines, if_neg h1, if_neg h0, writeOne_eq cp g st line h0]
      exact ih _ _ ht

theorem processLines_split (cp : ChromosomeProcessor) (g : Gjson) (pre : List Line)
    (l : Line) (post : List Line) (n : Nat) (st : PState)
    (hpre : ∀ a ∈ pre, a.length ≤ maxLineSize) (hl : maxLineSize < l.length) :
    processLines cp g (pre ++ l :: post) n st =
      (applyWrites cp g pre st, some PErr.lineTooLong) := by
  induction pre generalizing n st with
  | nil =>
    rw [List.nil_append, processLines, if_pos hl]
    simp [applyWrites]
  | cons a rest ih =>
    have h1 : ¬ (maxLineSize < a.length) :=
      not_lt.2 (hpre a (List.mem_cons_self a rest))
    have ht : ∀ b ∈ rest, b.length ≤ maxLineSize :=
      fun b hb => hpre b (List.mem_cons_of_mem _ hb)
    rw [applyWrites_cons, List.cons_append]
    by_cases h0 : a.length = 0
    · rw [processLines, if_neg h1, if_pos h0, writeOne, if_pos h0]
      exact ih _ _ ht
    · rw [processLines, if_neg h1, if_neg h0, writeOne_eq cp g st a h0]
      exact ih _ _ ht

theorem applyWrites_fields (cp : ChromosomeProcessor) (g : Gjson)
    (input : List Line) (st : PState) :
    (applyWrites cp g input st).fs = st.fs ∧
    (applyWrites cp g input st).openHandles = st.openHandles ∧
    (applyWrites cp g input st).nextHandle = st.nextHandle ∧
    (applyWrites cp g input st).outputFiles = st.outputFiles ∧
    mapKeys (applyWrites cp g input st).outputWriters = mapKeys st.outputWriters := by
  induction input generalizing st with
  | nil => exact ⟨rfl, rfl, rfl, rfl, rfl⟩
  | cons line rest ih =>
    rw [applyWrites_cons]
    by_cases h0 : line.length = 0
    · rw [writeOne, if_pos h0]
      exact ih st
    · rw [writeOne_eq cp g st line h0]
      set st2 : PState :=
        { st with outputWriters := appendToWriter st.outputWriters (GetOutputWriter st.outputWriters (routeLine cp g line)) (line ++ [10]) } with hst2
      obtain ⟨e1, e2, e3, e4, e5⟩ := ih st2
      refine ⟨e1, e2, e3, e4, e5.trans ?_⟩
      rw [hst2]
      exact mapKeys_appendToWriter _ _ _

theorem withNl_cons (l : Line) (ls : List Line) :
    withNl (l :: ls) = l ++ [10] ++ withNl ls := rfl

theorem routedLines_cons_blank (cp : ChromosomeProcessor) (g : Gjson)
    (l : Line) (rest : List Line) (c : String) (h0 : l.length = 0) :
    routedLines cp g (l :: rest) c = routedLines cp g rest c := by
  simp [routedLines, h0]

theorem routedLines_cons_hit (cp : ChromosomeProcessor) (g : Gjson)
    (l : Line) (rest : List Line) (c : String) (h0 : ¬ l.length = 0)
    (hr : routeLine cp g l = c) :
    routedLines cp g (l :: rest) c = l :: routedLines cp g rest c := by
  simp [routedLines, h0, hr]

theorem routedLines_cons_miss (cp : ChromosomeProcessor) (g : Gjson)
    (l : Line) (rest : List Line) (c : String) (hr : ¬ routeLine cp g l = c) :
    routedLines cp g (l :: rest) c = routedLines cp g rest c := by
  simp [routedLines, hr]

theorem applyWrites_writers (cp : ChromosomeProcessor) (g : Gjson)
    (input : List Line) (st : PState)
    (hw : ∀ l ∈ input, l.length = 0 ∨
      (mapLookup st.outputWriters (routeLine cp g l)).isSome = true)
    (k : String) :
    mapLookup (applyWrites cp g input st).outputWriters k =
      (mapLookup st.outputWriters k).map
        (fun b => b ++ withNl (routedLines cp g input k)) := by
  induction input generalizing st with
  | nil =>
    cases h : mapLookup st.outputWriters k <;> simp [applyWrites, routedLines, withNl, h]
  | cons l rest ih =>
    rw [applyWrites_cons]
    by_cases h0 : l.length = 0
    · rw [writeOne, if_pos h0, routedLines_cons_blank cp g l rest k h0]
      exact ih st (fun l2 h2 => hw l2 (List.mem_cons_of_mem _ h2))
    · rw [writeOne_eq cp g st l h0]
      have hsome : (mapLookup st.outputWriters (routeLine cp g l)).isSome = true := by
        rcases hw l (List.mem_cons_self l rest) with h | h
        · exact absurd h h0
        · exact h
      have hkey : GetOutputWriter st.outputWriters (routeLine cp g l) = routeLine cp g l := by
        rw [GetOutputWriter, if_pos hsome]
      rw [hkey]
      set st2 : PState :=
        { st with outputWriters :=
            appendToWriter st.outputWriters (routeLine cp g l) (l ++ [10]) } with hst2
      have hw2 : ∀ l2 ∈ rest, l2.length = 0 ∨
          (mapLookup st2.outputWriters (routeLine cp g l2)).isSome = true := by
        intro l2 h2
        rcases hw l2 (List.mem_cons_of_mem _ h2) with h | h
        · exact Or.inl h
        · refine Or.inr ?_
          rw [hst2]
          simpa [isSome_appendToWriter] using h
      rw [ih st2 hw2]
      by_cases hk : routeLine cp g l = k
      · rw [routedLines_cons_hit cp g l rest k h0 hk, withNl_cons, hst2]
        subst hk
        rw [mapLookup_appendToWriter_self]
        cases mapLookup st.outputWriters (routeLine cp g l) <;> simp
      · rw [routedLines_cons_miss cp g l rest k hk, hst2]
        have hk2 : k ≠ routeLine cp g l := fun e => hk e.symm
        rw [mapLookup_appendToWriter_ne _ _ _ _ hk2]

/-! Characterization of flushing and closing. -/

theorem mapLookup_isSome_iff_mem_keys {α : Type} (m : List (String × α))
    (k : String) : (mapLookup m k).isSome = true ↔ k ∈ mapKeys m := by
  induction m with
  | nil => simp [mapLookup, mapKeys]
  | cons p rest ih =>
    obtain ⟨k2, v2⟩ := p
    by_cases h : k2 = k
    · subst h
      simp [mapLookup, mapKeys]
    · have h2 : ¬ (k = k2) := fun e => h e.symm
      simp [mapLookup, mapKeys, h, h2, ih]

theorem mapLookup_map_zero (ws : List (String × Line)) (k : String) :
    mapLookup (ws.map (fun p => (p.1, ([] : Line)))) k =
      (mapLookup ws k).map (fun _ => ([] : Line)) := by
  induction ws with
  | nil => simp [mapLookup]
  | cons p rest ih =>
    obtain ⟨k2, v2⟩ := p
    by_cases h : k2 = k <;> simp [mapLookup, h, ih]

theorem mapKeys_map_zero (ws : List (String × Line)) :
    mapKeys (ws.map (fun p => (p.1, ([] : Line)))) = mapKeys ws := by
  induction ws with
  | nil => rfl
  | cons p rest ih => simpa [mapKeys] using ih

theorem flushFold_untouched (pfx : String) (ws : List (String × Line))
    (fs : List (String × Line)) (f : String)
    (h : ∀ p ∈ ws, outFileName pfx p.1 ≠ f) :
    mapLookup (ws.foldl (flushOne pfx) fs) f = mapLookup fs f := by
  induction ws generalizing fs with
  | nil => rfl
  | cons p rest ih =>
    rw [List.foldl_cons, ih _ (fun q hq => h q (List.mem_cons_of_mem _ hq))]
    rw [flushOne]
    exact mapLookup_mapInsert_ne _ _ _ _ (h p (List.mem_cons_self p rest)).symm

theorem flushFold_key (pfx : String) (ws : List (String × Line))
    (fs : List (String × Line)) (c : String) (buf : Line) :
    (mapKeys ws).Nodup → mapLookup ws c = some buf →
    mapLookup (ws.foldl (flushOne pfx) fs) (outFileName pfx c) =
      some ((mapLookup fs (outFileName pfx c)).getD [] ++ buf) := by
  induction ws generalizing fs with
  | nil => intro _ h; simp [mapLookup] at h
  | cons p rest ih =>
    intro hnd h
    obtain ⟨k2, b2⟩ := p
    rw [List.foldl_cons]
    by_cases hk : k2 = c
    · subst hk
      have hb : b2 = buf := by simpa [mapLookup] using h
      subst hb
      have hnotin : k2 ∉ mapKeys rest := by
        have h3 := hnd
        rw [show mapKeys ((k2, b2) :: rest) = k2 :: mapKeys rest from rfl,
          List.nodup_cons] at h3
        exact h3.1
      rw [flushFold_untouched pfx rest _ _ ?hne]
      · rw [flushOne]
        exact mapLookup_mapInsert_self _ _ _
      case hne =>
        intro q hq e
        have hq1 : q.1 = k2 := outFileName_inj pfx q.1 k2 e
        exact hnotin (hq1 ▸ List.mem_map_of_mem Prod.fst hq)
    · have h2 : mapLookup rest c = some buf := by simpa [mapLookup, hk] using h
      have hnd2 : (mapKeys rest).Nodup := by
        have h3 := hnd
        rw [show mapKeys ((k2, b2) :: rest) = k2 :: mapKeys rest from rfl,
          List.nodup_cons] at h3
        exact h3.2
      rw [ih _ hnd2 h2]
      have hne : outFileName pfx c ≠ outFileName pfx k2 :=
        fun e => hk (outFileName_inj pfx c k2 e).symm
      rw [flushOne]
      rw [mapLookup_mapInsert_ne _ _ _ _ hne]

theorem closeAll_not_open (cp : ChromosomeProcessor) (st : PState) (k : String)
    (h0 : Nat) (h : mapLookup st.outputFiles k = some h0) :
    h0 ∉ (CloseAllFiles cp st).openHandles := by
  intro hmem
  rw [CloseAllFiles] at hmem
  have h2 := List.of_mem_filter hmem
  rw [show (FlushAllWriters cp st).outputFiles = st.outputFiles from rfl] at h2
  rw [any_snd_of_mapLookup _ _ _ h] at h2
  exact Bool.noConfusion h2

theorem closeAll_openHandles_nil (cp : ChromosomeProcessor) (st : PState)
    (hcov : handlesCovered st) : (CloseAllFiles cp st).openHandles = [] := by
  rw [CloseAllFiles]
  refine List.filter_eq_nil.2 ?_
  intro h hmem
  rw [show (FlushAllWriters cp st).openHandles = st.openHandles from rfl] at hmem
  obtain ⟨k, hk⟩ := hcov h hmem
  rw [show (FlushAllWriters cp st).outputFiles = st.outputFiles from rfl]
  simp [any_snd_of_mapLookup _ _ _ hk]

/-! The routing decision always lands on a created stream. -/

theorem routeKey_mem (ns : List String) (chr : String) (found : Bool) :
    routeKey (mkChrSet ns) chr found ∈ ns ++ [UnknownChr] := by
  rw [routeKey]
  by_cases h : (found && lookupBool (mkChrSet ns) chr) = true
  · rw [if_pos h]
    have h2 : lookupBool (mkChrSet ns) chr = true := by
      cases found
      · simp at h
      · simpa using h
    have h3 : chr ∈ ns := (lookupBool_mkChrSet ns chr).1 h2
    simp [h3]
  · rw [if_neg h]
    simp

theorem routeLine_mem (cp : ChromosomeProcessor) (g : Gjson)
    (hset : cp.chrSet = mkChrSet cp.chrNames) (l : Line) :
    routeLine cp g l ∈ allChrs cp := by
  rw [routeLine, allChrs, hset]
  exact routeKey_mem _ _ _

theorem any_outFileName_self (pfx : String) (cs : List String) (c : String)
    (hc : c ∈ cs) : (cs.any (fun b => outFileName pfx b == outFileName pfx c)) = true :=
  List.any_eq_true.2 ⟨c, hc, by simp⟩

/-! The success path of a whole run. -/

theorem ProcessFile_success_eq (cp : ChromosomeProcessor) (g : Gjson)
    (createOK : String → Bool) (input : List Line) (fs0 : List (String × Line))
    (hc : ∀ c ∈ allChrs cp, createOK (outFileName cp.pfx c) = true)
    (hlen : ∀ l ∈ input, l.length ≤ maxLineSize) :
    ProcessFile cp g createOK true input fs0 =
      (CloseAllFiles cp (FlushAllWriters cp
        (applyWrites cp g input (initInserts cp.pfx (allChrs cp) (initState fs0)))), none) := by
  have h1 : InitializeOutputFiles createOK cp (initState fs0) =
      (initInserts cp.pfx (allChrs cp) (initState fs0), true) := by
    rw [InitializeOutputFiles, initLoop_ok _ _ _ _ hc]
  rw [ProcessFile, h1]
  simp only [Bool.not_true]
  rw [if_neg (by simp : ¬ (false = true))]
  rw [processLines_ok cp g input 0 _ hlen]

/-- The final state of a successful run, fully characterized: file contents
of every output file, preservation of unrelated files, flushed buffers, and
closed streams. -/
theorem run_success_char (cp : ChromosomeProcessor) (g : Gjson)
    (createOK : String → Bool) (input : List Line) (fs0 : List (String × Line))
    (hset : cp.chrSet = mkChrSet cp.chrNames)
    (hc : ∀ c ∈ allChrs cp, createOK (outFileName cp.pfx c) = true)
    (hlen : ∀ l ∈ input, l.length ≤ maxLineSize) :
    ∃ st, ProcessFile cp g createOK true input fs0 = (st, none) ∧
      (∀ c ∈ allChrs cp, mapLookup st.fs (outFileName cp.pfx c) =
        some (withNl (routedLines cp g input c))) ∧
      (∀ f, isOutFile cp f = false → mapLookup st.fs f = mapLookup fs0 f) ∧
      (∀ p ∈ st.outputWriters, p.2 = ([] : Line)) ∧
      (∀ k h0, mapLookup st.outputFiles k = some h0 → h0 ∉ st.openHandles) := by
  set st1 := initInserts cp.pfx (allChrs cp) (initState fs0) with hst1
  have hW1 : ∀ k, mapLookup st1.outputWriters k =
      if k ∈ allChrs cp then some [] else none := by
    intro k
    rw [hst1, initInserts_writers_lookup]
    rw [show mapLookup (initState fs0).outputWriters k = none from rfl]
  have hF1 : ∀ f, mapLookup st1.fs f =
      if (allChrs cp).any (fun c => outFileName cp.pfx c == f) then some []
      else mapLookup fs0 f := by
    intro f
    rw [hst1, initInserts_fs_lookup]
    rw [show (initState fs0).fs = fs0 from rfl]
  have hK1 : (mapKeys st1.outputWriters).Nodup := by
    rw [hst1]
    exact initInserts_writers_keys_nodup _ _ _ (by simp [initState, mapKeys])
  have hw : ∀ l ∈ input, l.length = 0 ∨
      (mapLookup st1.outputWriters (routeLine cp g l)).isSome = true := by
    refine fun l _ => Or.inr ?_
    rw [hW1, if_pos (routeLine_mem cp g hset l)]
    rfl
  set st2 := applyWrites cp g input st1 with hst2
  obtain ⟨e1, e2, e3, e4, e5⟩ := applyWrites_fields cp g input st1
  have hW2 : ∀ k, mapLookup st2.outputWriters k =
      (if k ∈ allChrs cp then some [] else none).map
        (fun b => b ++ withNl (routedLines cp g input k)) := by
    intro k
    rw [hst2, applyWrites_writers cp g input st1 hw, hW1]
  have hK2 : (mapKeys st2.outputWriters).Nodup := by
    rw [hst2, e5]
    exact hK1
  have hW2mem : ∀ p ∈ st2.outputWriters, p.1 ∈ allChrs cp := by
    intro p hp
    have hs : (mapLookup st2.outputWriters p.1).isSome = true :=
      (mapLookup_isSome_iff_mem_keys _ _).2 (List.mem_map_of_mem Prod.fst hp)
    by_contra hmem
    rw [hW2, if_neg hmem] at hs
    simp at hs
  set st3 := FlushAllWriters cp st2 with hst3
  have hWK3 : ∀ p ∈ st3.outputWriters, p.1 ∈ allChrs cp := by
    intro p hp
    rw [hst3, FlushAllWriters] at hp
    obtain ⟨q, hq, he⟩ := List.mem_map.1 hp
    rw [← he]
    exact hW2mem q hq
  have hW3 : ∀ k, mapLookup st3.outputWriters k =
      (mapLookup st2.outputWriters k).map (fun _ => ([] : Line)) := by
    intro k
    rw [hst3, FlushAllWriters]
    exact mapLookup_map_zero _ _
  have hK3 : (mapKeys st3.outputWriters).Nodup := by
    rw [hst3, FlushAllWriters]
    rw [show mapKeys ((st2.outputWriters).map (fun p => (p.1, ([] : Line)))) =
      mapKeys st2.outputWriters from mapKeys_map_zero _]
    exact hK2
  have hfs3 : ∀ c ∈ allChrs cp, mapLookup st3.fs (outFileName cp.pfx c) =
      some (withNl (routedLines cp g input c)) := by
    intro c hcmem
    have hbuf : mapLookup st2.outputWriters c = some (withNl (routedLines cp g input c)) := by
      rw [hW2, if_pos hcmem]
      simp
    rw [hst3, FlushAllWriters]
    rw [flushFold_key cp.pfx _ _ _ _ hK2 hbuf]
    rw [hst2, e1, hF1, if_pos (any_outFileName_self cp.pfx (allChrs cp) c hcmem)]
    simp
  have hout : ∀ f, isOutFile cp f = false →
      (∀ p ∈ st2.outputWriters, outFileName cp.pfx p.1 ≠ f) := by
    intro f hf p hp he
    have h1 := hW2mem p hp
    rw [isOutFile] at hf
    have h2 : ((allChrs cp).any (fun c => outFileName cp.pfx c == f)) = true :=
      List.any_eq_true.2 ⟨p.1, h1, by simp [he]⟩
    rw [hf] at h2
    exact Bool.noConfusion h2
  have hfs3u : ∀ f, isOutFile cp f = false → mapLookup st3.fs f = mapLookup fs0 f := by
    intro f hf
    rw [hst3, FlushAllWriters]
    rw [flushFold_untouched cp.pfx _ _ _ (hout f hf)]
    rw [hst2, e1, hF1]
    rw [isOutFile] at hf
    rw [if_neg (by rw [hf]; exact Bool.noConfusion)]
  refine ⟨CloseAllFiles cp st3, ?_, ?_, ?_, ?_, ?_⟩
  · rw [ProcessFile_success_eq cp g createOK input fs0 hc hlen]
  · intro c hcmem
    have hbuf3 : mapLookup st3.outputWriters c = some ([] : Line) := by
      rw [hW3, hW2, if_pos hcmem]
      simp
    rw [CloseAllFiles]
    rw [show ({ FlushAllWriters cp st3 with openHandles :=
      ((FlushAllWriters cp st3).openHandles.filter (fun h => !((FlushAllWriters cp st3).outputFiles.any (fun p => p.2 == h)))) } : PState).fs
      = (FlushAllWriters cp st3).fs from rfl]
    rw [FlushAllWriters]
    rw [flushFold_key cp.pfx _ _ _ _ hK3 hbuf3]
    rw [hfs3 c hcmem]
    simp
  · intro f hf
    rw [CloseAllFiles]
    rw [show ({ FlushAllWriters cp st3 with openHandles :=
      ((FlushAllWriters cp st3).openHandles.filter (fun h => !((FlushAllWriters cp st3).outputFiles.any (fun p => p.2 == h)))) } : PState).fs
      = (FlushAllWriters cp st3).fs from rfl]
    rw [FlushAllWriters]
    have hout3 : ∀ p ∈ st3.outputWriters, outFileName cp.pfx p.1 ≠ f := by
      intro p hp he
      have h1 := hWK3 p hp
      rw [isOutFile] at hf
      have h2 : ((allChrs cp).any (fun c => outFileName cp.pfx c == f)) = true :=
        List.any_eq_true.2 ⟨p.1, h1, by simp [he]⟩
      rw [hf] at h2
      exact Bool.noConfusion h2
    rw [flushFold_untouched cp.pfx _ _ _ hout3]
    exact hfs3u f hf
  · intro p hp
    have hp2 : p ∈ (st3.outputWriters).map (fun q => (q.1, ([] : Line))) := by
      exact hp
    obtain ⟨q, _, he⟩ := List.mem_map.1 hp2
    rw [← he]
  · intro k h0 hk
    exact closeAll_not_open cp st3 k h0 hk

/-! The oversized-line error path of a whole run. -/

theorem ProcessFile_oversized_eq (cp : ChromosomeProcessor) (g : Gjson)
    (createOK : String → Bool) (fs0 : List (String × Line)) (pre : List Line)
    (l : Line) (post : List Line)
    (hc : ∀ c ∈ allChrs cp, createOK (outFileName cp.pfx c) = true)
    (hpre : ∀ a ∈ pre, a.length ≤ maxLineSize) (hl : maxLineSize < l.length) :
    ProcessFile cp g createOK true (pre ++ l :: post) fs0 =
      (CloseAllFiles cp (applyWrites cp g pre (initInserts cp.pfx (allChrs cp) (initState fs0))),
        some PErr.lineTooLong) := by
  have h1 : InitializeOutputFiles createOK cp (initState fs0) =
      (initInserts cp.pfx (allChrs cp) (initState fs0), true) := by
    rw [InitializeOutputFiles, initLoop_ok _ _ _ _ hc]
  rw [ProcessFile, h1]
  simp only [Bool.not_true]
  rw [if_neg (by simp : ¬ (false = true))]
  rw [processLines_split cp g pre l post 0 _ hpre hl]

/-- The final state of a run stopped by an oversized line, fully
characterized: the lines before the stop are flushed to disk, buffers are
empty, every mapped stream is closed, unrelated files untouched. -/
theorem run_oversized_char (cp : ChromosomeProcessor) (g : Gjson)
    (createOK : String → Bool) (fs0 : List (String × Line)) (pre : List Line)
    (l : Line) (post : List Line)
    (hset : cp.chrSet = mkChrSet cp.chrNames)
    (hc : ∀ c ∈ allChrs cp, createOK (outFileName cp.pfx c) = true)
    (hpre : ∀ a ∈ pre, a.length ≤ maxLineSize) (hl : maxLineSize < l.length) :
    ∃ st, ProcessFile cp g createOK true (pre ++ l :: post) fs0 =
        (st, some PErr.lineTooLong) ∧
      (∀ c ∈ allChrs cp, mapLookup st.fs (outFileName cp.pfx c) =
        some (withNl (routedLines cp g pre c))) ∧
      (∀ f, isOutFile cp f = false → mapLookup st.fs f = mapLookup fs0 f) ∧
      (∀ p ∈ st.outputWriters, p.2 = ([] : Line)) ∧
      (∀ k h0, mapLookup st.outputFiles k = some h0 → h0 ∉ st.openHandles) := by
  set st1 := initInserts cp.pfx (allChrs cp) (initState fs0) with hst1
  have hW1 : ∀ k, mapLookup st1.outputWriters k =
      if k ∈ allChrs cp then some [] else none := by
    intro k
    rw [hst1, initInserts_writers_lookup]
    rw [show mapLookup (initState fs0).outputWriters k = none from rfl]
  have hF1 : ∀ f, mapLookup st1.fs f =
      if (allChrs cp).any (fun c => outFileName cp.pfx c == f) then some []
      else mapLookup fs0 f := by
    intro f
    rw [hst1, initInserts_fs_lookup]
    rw [show (initState fs0).fs = fs0 from rfl]
  have hK1 : (mapKeys st1.outputWriters).Nodup := by
    rw [hst1]
    exact initInserts_writers_keys_nodup _ _ _ (by simp [initState, mapKeys])
  have hw : ∀ a ∈ pre, a.length = 0 ∨
      (mapLookup st1.outputWriters (routeLine cp g a)).isSome = true := by
    refine fun a _ => Or.inr ?_
    rw [hW1, if_pos (routeLine_mem cp g hset a)]
    rfl
  set st2 := applyWrites cp g pre st1 with hst2
  obtain ⟨e1, e2, e3, e4, e5⟩ := applyWrites_fields cp g pre st1
  have hW2 : ∀ k, mapLookup st2.outputWriters k =
      (if k ∈ allChrs cp then some [] else none).map
        (fun b => b ++ withNl (routedLines cp g pre k)) := by
    intro k
    rw [hst2, applyWrites_writers cp g pre st1 hw, hW1]
  have hK2 : (mapKeys st2.outputWriters).Nodup := by
    rw [hst2, e5]
    exact hK1
  have hW2mem : ∀ p ∈ st2.outputWriters, p.1 ∈ allChrs cp := by
    intro p hp
    have hs : (mapLookup st2.outputWriters p.1).isSome = true :=
      (mapLookup_isSome_iff_mem_keys _ _).2 (List.mem_map_of_mem Prod.fst hp)
    by_contra hmem
    rw [hW2, if_neg hmem] at hs
    simp at hs
  refine ⟨CloseAllFiles cp st2, ?_, ?_, ?_, ?_, ?_⟩
  · rw [ProcessFile_oversized_eq cp g createOK fs0 pre l post hc hpre hl]
  · intro c hcmem
    have hbuf : mapLookup st2.outputWriters c = some (withNl (routedLines cp g pre c)) := by
      rw [hW2, if_pos hcmem]
      simp
    rw [CloseAllFiles]
    rw [show ({ FlushAllWriters cp st2 with openHandles :=
      ((FlushAllWriters cp st2).openHandles.filter (fun h => !((FlushAllWriters cp st2).outputFiles.any (fun p => p.2 == h)))) } : PState).fs
      = (FlushAllWriters cp st2).fs from rfl]
    rw [FlushAllWriters]
    rw [flushFold_key cp.pfx _ _ _ _ hK2 hbuf]
    rw [hst2, e1, hF1, if_pos (any_outFileName_self cp.pfx (allChrs cp) c hcmem)]
    simp
  · intro f hf
    have hout : ∀ p ∈ st2.outputWriters, outFileName cp.pfx p.1 ≠ f := by
      intro p hp he
      have h1 := hW2mem p hp
      rw [isOutFile] at hf
      have h2 : ((allChrs cp).any (fun c => outFileName cp.pfx c == f)) = true :=
        List.any_eq_true.2 ⟨p.1, h1, by simp [he]⟩
      rw [hf] at h2
      exact Bool.noConfusion h2
    rw [CloseAllFiles]
    rw [show ({ FlushAllWriters cp st2 with openHandles :=
      ((FlushAllWriters cp st2).openHandles.filter (fun h => !((FlushAllWriters cp st2).outputFiles.any (fun p => p.2 == h)))) } : PState).fs
      = (FlushAllWriters cp st2).fs from rfl]
    rw [FlushAllWriters]
    rw [flushFold_untouched cp.pfx _ _ _ hout]
    rw [hst2, e1, hF1]
    rw [isOutFile] at hf
    rw [if_neg (by rw [hf]; exact Bool.noConfusion)]
  · intro p hp
    have hp2 : p ∈ (st2.outputWriters).map (fun q => (q.1, ([] : Line))) := hp
    obtain ⟨q, _, he⟩ := List.mem_map.1 hp2
    rw [← he]
  · intro k h0 hk
    exact closeAll_not_open cp st2 k h0 hk

/-! The init-failure path of a whole run. -/

theorem run_initfail_char (cp : ChromosomeProcessor) (g : Gjson)
    (createOK : String → Bool) (inputOK : Bool) (input : List Line)
    (fs0 : List (String × Line)) (hnd : cp.chrNames.Nodup)
    (hfail : ∃ c ∈ allChrs cp, createOK (outFileName cp.pfx c) = false) :
    ∃ st, ProcessFile cp g createOK inputOK input fs0 = (st, some PErr.createFailed) ∧
      st.openHandles = [] ∧ (∀ p ∈ st.outputWriters, p.2 = ([] : Line)) ∧
      (∀ g2 : Gjson, ∀ inputOK2 : Bool, ∀ input2 : List Line,
        ProcessFile cp g2 createOK inputOK2 input2 fs0 = (st, some PErr.createFailed)) := by
  have hsnd : (initLoop cp.pfx createOK (allChrs cp) (initState fs0)).2 = false :=
    initLoop_snd_false _ _ _ _ hfail
  set r := initLoop cp.pfx createOK (allChrs cp) (initState fs0) with hr
  have hrpair : r = (r.1, false) := by
    rw [← hsnd, hr]
  have hI : InitializeOutputFiles createOK cp (initState fs0) =
      (CloseAllFiles cp r.1, false) := by
    rw [InitializeOutputFiles, ← hr, hrpair]
  obtain ⟨pre, c2, post, he, hpreok, hc2, hst⟩ :=
    initLoop_false_decomp cp.pfx createOK (allChrs cp) (initState fs0) r.1
      (by rw [← hr, hrpair])
  have hlen : pre.length ≤ cp.chrNames.length := by
    have h1 := congrArg List.length he
    rw [allChrs] at h1
    simp at h1
    omega
  have hpreeq : pre = cp.chrNames.take pre.length := by
    have h1 : (allChrs cp).take pre.length = pre := by
      rw [he, List.take_left]
    rw [allChrs] at h1
    rw [List.take_append_of_le_length hlen] at h1
    exact h1.symm
  have hpnd : pre.Nodup := by
    rw [hpreeq]
    exact List.Nodup.sublist (List.take_sublist _ _) hnd
  have hcov : handlesCovered r.1 := by
    rw [hst]
    refine handlesCovered_initInserts cp.pfx pre (initState fs0) hpnd ?_ ?_
    · intro a _
      rfl
    · intro h hmem
      exact absurd hmem (by simp [initState])
  have hnil : (CloseAllFiles cp r.1).openHandles = [] :=
    closeAll_openHandles_nil cp r.1 hcov
  have hwz : ∀ p ∈ (CloseAllFiles cp r.1).outputWriters, p.2 = ([] : Line) := by
    intro p hp
    have hp2 : p ∈ (r.1.outputWriters).map (fun q => (q.1, ([] : Line))) := hp
    obtain ⟨q, _, heq⟩ := List.mem_map.1 hp2
    rw [← heq]
  refine ⟨CloseAllFiles cp r.1, ?_, hnil, hwz, ?_⟩
  · rw [ProcessFile, hI]
  · intro g2 inputOK2 input2
    rw [ProcessFile, hI]

/-! Blank lines have no effect on a run. -/

theorem processLines_lineNum_irrel (cp : ChromosomeProcessor) (g : Gjson)
    (ls : List Line) (n m : Nat) (st : PState) :
    processLines cp g ls n st = processLines cp g ls m st := by
  induction ls generalizing n m st with
  | nil => rfl
  | cons l rest ih =>
    rw [processLines, processLines]
    by_cases h1 : maxLineSize < l.length
    · rw [if_pos h1, if_pos h1]
    · rw [if_neg h1, if_neg h1]
      by_cases h0 : l.length = 0
      · rw [if_pos h0, if_pos h0]
        exact ih _ _ _
      · rw [if_neg h0, if_neg h0]
        exact ih _ _ _

theorem processLines_filter_blank (cp : ChromosomeProcessor) (g : Gjson)
    (ls : List Line) (n : Nat) (st : PState) :
    processLines cp g (ls.filter (fun l => !(l.length == 0))) n st =
      processLines cp g ls n st := by
  induction ls generalizing n st with
  | nil => rfl
  | cons l rest ih =>
    by_cases h0 : l.length = 0
    · rw [show (l :: rest).filter (fun l => !(l.length == 0)) =
        rest.filter (fun l => !(l.length == 0)) by simp [List.filter_cons, h0]]
      rw [ih n st]
      rw [show processLines cp g (l :: rest) n st = processLines cp g rest (n + 1) st by
        rw [processLines, if_neg (by rw [h0]; simp [maxLineSize]), if_pos h0]]
      exact processLines_lineNum_irrel cp g rest n (n + 1) st
    · rw [show (l :: rest).filter (fun l => !(l.length == 0)) =
        l :: rest.filter (fun l => !(l.length == 0)) by simp [List.filter_cons, h0]]
      rw [processLines, processLines]
      by_cases h1 : maxLineSize < l.length
      · rw [if_pos h1, if_pos h1]
      · rw [if_neg h1, if_neg h1, if_neg h0, if_neg h0]
        exact ih _ _

theorem ProcessFile_filter_blank (cp : ChromosomeProcessor) (g : Gjson)
    (createOK : String → Bool) (inputOK : Bool) (input : List Line)
    (fs0 : List (String × Line)) :
    ProcessFile cp g createOK inputOK (input.filter (fun l => !(l.length == 0))) fs0 =
      ProcessFile cp g createOK inputOK input fs0 := by
  rw [ProcessFile, ProcessFile]
  rcases hI : InitializeOutputFiles createOK cp (initState fs0) with ⟨st1, ok⟩
  cases ok
  · rfl
  · cases inputOK
    · rfl
    · simp only [Bool.not_true]
      rw [if_neg (by simp : ¬ (false = true)), if_neg (by simp : ¬ (false = true))]
      rw [processLines_filter_blank cp g input 0 st1]

/-! The line counts of the output files partition the non-blank input. -/

theorem sum_map_ite_zero (a : String) (cs : List String) (h : a ∉ cs) :
    (cs.map (fun c => if a = c then 1 else 0)).sum = 0 := by
  induction cs with
  | nil => rfl
  | cons c rest ih =>
    have h1 : ¬ (a = c) := fun e => h (e ▸ List.mem_cons_self c rest)
    have h2 : a ∉ rest := fun e => h (List.mem_cons_of_mem _ e)
    simp [h1, ih h2]

theorem sum_map_ite_one (a : String) (cs : List String) (hnd : cs.Nodup)
    (ha : a ∈ cs) : (cs.map (fun c => if a = c then 1 else 0)).sum = 1 := by
  induction cs with
  | nil => simp at ha
  | cons c rest ih =>
    rcases List.mem_cons.1 ha with h1 | h1
    · subst h1
      have h2 : a ∉ rest := (List.nodup_cons.1 hnd).1
      simp [sum_map_ite_zero a rest h2]
    · have h2 : ¬ (a = c) := by
        intro e
        subst e
        exact (List.nodup_cons.1 hnd).1 h1
      simp only [List.map_cons, List.sum_cons, if_neg h2]
      rw [ih (List.nodup_cons.1 hnd).2 h1]

theorem sum_map_add_nat (l : List String) (f g2 : String → Nat) :
    (l.map (fun c => f c + g2 c)).sum = (l.map f).sum + (l.map g2).sum := by
  induction l with
  | nil => rfl
  | cons c rest ih =>
    simp only [List.map_cons, List.sum_cons, ih]
    omega

theorem length_partition (r : Line → String) (cats : List String)
    (hnd : cats.Nodup) (xs : List Line) (hx : ∀ x ∈ xs, r x ∈ cats) :
    (cats.map (fun c => (xs.filter (fun x => r x == c)).length)).sum = xs.length := by
  induction xs with
  | nil => simp
  | cons x xs ih =>
    have hmap : (cats.map (fun c => ((x :: xs).filter (fun y => r y == c)).length)) =
        cats.map (fun c => (if r x = c then 1 else 0) +
          (xs.filter (fun y => r y == c)).length) := by
      refine List.map_congr_left ?_
      intro c _
      by_cases h : r x = c
      · simp [List.filter_cons, h]
        omega
      · simp [List.filter_cons, h]
    rw [hmap, sum_map_add_nat]
    rw [sum_map_ite_one (r x) cats hnd (hx x (List.mem_cons_self x xs))]
    rw [ih (fun y hy => hx y (List.mem_cons_of_mem _ hy))]
    simp [Nat.add_comm]

theorem routedLines_eq_filter (cp : ChromosomeProcessor) (g : Gjson)
    (input : List Line) (c : String) :
    routedLines cp g input c =
      (input.filter (fun l => !(l.length == 0))).filter
        (fun l => routeLine cp g l == c) := by
  induction input with
  | nil => rfl
  | cons l rest ih =>
    by_cases h0 : l.length = 0
    · simp [routedLines, List.filter_cons, h0] at ih ⊢
      exact ih
    · by_cases hr : routeLine cp g l = c
      · simp [routedLines, List.filter_cons, h0, hr] at ih ⊢
        exact ih
      · simp [routedLines, List.filter_cons, h0, hr] at ih ⊢
        exact ih

theorem routed_partition (cp : ChromosomeProcessor) (g : Gjson)
    (input : List Line) (hset : cp.chrSet = mkChrSet cp.chrNames)
    (hlen : ∀ l ∈ input, l.length ≤ maxLineSize) :
    (((allChrs cp).dedup).map (fun c => (routedLines cp g input c).length)).sum =
      (input.filter (fun l => !(l.length == 0))).length := by
  have h1 : (((allChrs cp).dedup).map (fun c => (routedLines cp g input c).length)) =
      ((allChrs cp).dedup).map (fun c =>
        (((input.filter (fun l => !(l.length == 0)))).filter
          (fun l => routeLine cp g l == c)).length) := by
    refine List.map_congr_left ?_
    intro c _
    rw [routedLines_eq_filter]
  rw [h1]
  refine length_partition (routeLine cp g) ((allChrs cp).dedup) (List.nodup_dedup _)
    (input.filter (fun l => !(l.length == 0))) ?_
  intro x _
  exact List.mem_dedup.2 (routeLine_mem cp g hset x)

/-! Routing and file naming only depend on the set of declared names. -/

theorem bool_eq_of_iff {a b : Bool} (h : a = true ↔ b = true) : a = b := by
  cases a <;> cases b <;> simp_all

theorem lookupBool_mkChrSet_dedup (ns : List String) (k : String) :
    lookupBool (mkChrSet ns.dedup) k = lookupBool (mkChrSet ns) k := by
  refine bool_eq_of_iff ?_
  rw [lookupBool_mkChrSet, lookupBool_mkChrSet]
  exact List.mem_dedup

theorem routeLine_dedup (iF pfx field : String) (ns : List String) (g : Gjson)
    (l : Line) :
    routeLine (NewChromosomeProcessor iF pfx field ns.dedup) g l =
      routeLine (NewChromosomeProcessor iF pfx field ns) g l := by
  simp only [routeLine, ExtractChromosome, NewChromosomeProcessor, routeKey]
  rw [lookupBool_mkChrSet_dedup]

theorem routedLines_dedup (iF pfx field : String) (ns : List String) (g : Gjson)
    (input : List Line) (c : String) :
    routedLines (NewChromosomeProcessor iF pfx field ns.dedup) g input c =
      routedLines (NewChromosomeProcessor iF pfx field ns) g input c := by
  rw [routedLines, routedLines]
  refine List.filter_congr ?_
  intro l _
  rw [routeLine_dedup]

theorem allChrs_dedup_mem (iF pfx field : String) (ns : List String) (c : String) :
    c ∈ allChrs (NewChromosomeProcessor iF pfx field ns.dedup) ↔
      c ∈ allChrs (NewChromosomeProcessor iF pfx field ns) := by
  simp [allChrs, NewChromosomeProcessor, List.mem_dedup]

theorem isOutFile_dedup (iF pfx field : String) (ns : List String) (f : String) :
    isOutFile (NewChromosomeProcessor iF pfx field ns.dedup) f =
      isOutFile (NewChromosomeProcessor iF pfx field ns) f := by
  refine bool_eq_of_iff ?_
  rw [isOutFile, isOutFile, List.any_eq_true, List.any_eq_true]
  constructor
  · rintro ⟨c, hm, hb⟩
    exact ⟨c, (allChrs_dedup_mem iF pfx field ns c).1 hm, hb⟩
  · rintro ⟨c, hm, hb⟩
    exact ⟨c, (allChrs_dedup_mem iF pfx field ns c).2 hm, hb⟩

/-- The sentinel output file is named by appending "_unknown_chr.jsonl". -/
theorem outFileName_unknown (p : String) :
    outFileName p UnknownChr = p ++ "_unknown_chr.jsonl" := by
  refine String.ext ?_
  simp [outFileName, UnknownChr]

/-! Concrete objects used by witnesses and counterexamples. -/

/-- A concrete gjson lookup: the record [1] carries the value "chr1", every
other record does not resolve. -/
def gW : Gjson := fun _ l =>
  if l == [1] then { resExists := true, str := "chr1" }
  else { resExists := false, str := "" }

/-- A file system on which every creation succeeds. -/
def okW : String → Bool := fun _ => true

/-- A file system on which creating "p_b.jsonl" fails. -/
def okFail5 : String → Bool := fun f => !(f == "p_b.jsonl")

/-! The claims. -/

/-- C2 counterexample: the claim "the routing decision returns the key itself
if and only if found is true and the key is a member of the declared set"
fails at key = "unknown_chr" with found = false and the empty declared set:
the decision returns the sentinel, which is the key itself, although found
is false and the key is not a member. -/
theorem claim2_counterexample :
    routeKey (mkChrSet []) "unknown_chr" false = "unknown_chr" ∧
    ¬ (false = true ∧ lookupBool (mkChrSet []) "unknown_chr" = true) := by
  decide

/-- C2 (amended): the routing decision returns the key when found is true and
the key is in the declared set, and returns the sentinel otherwise; for every
key other than the sentinel this is an if-and-only-if. It is a pure function
of the key, the flag and the set. -/
theorem claim2_routeKey_correct (chrSet : List (String × Bool)) (key : String)
    (found : Bool) :
    ((found = true ∧ lookupBool chrSet key = true) → routeKey chrSet key found = key) ∧
    (¬ (found = true ∧ lookupBool chrSet key = true) →
      routeKey chrSet key found = UnknownChr) ∧
    (key ≠ UnknownChr →
      (routeKey chrSet key found = key ↔ (found = true ∧ lookupBool chrSet key = true))) := by
  refine ⟨?_, ?_, ?_⟩
  · rintro ⟨h1, h2⟩
    rw [routeKey, if_pos (by rw [h1, h2]; rfl)]
  · intro h
    have hb : ¬ ((found && lookupBool chrSet key) = true) := by
      intro hb
      rw [Bool.and_eq_true] at hb
      exact h hb
    rw [routeKey, if_neg hb]
  · intro hk
    constructor
    · intro he
      by_cases hb : (found && lookupBool chrSet key) = true
      · rw [Bool.and_eq_true] at hb
        exact hb
      · rw [routeKey, if_neg hb] at he
        exact absurd he.symm hk
    · rintro ⟨h1, h2⟩
      rw [routeKey, if_pos (by rw [h1, h2]; rfl)]

/-- Witness for C2: the amended theorem evaluated at a concrete set, key and
flag, each hypothesis discharged. -/
theorem claim2_routeKey_correct_witness :
    routeKey (mkChrSet ["chr1"]) "chr1" true = "chr1" ∧
    routeKey (mkChrSet ["chr1"]) "chr9" true = UnknownChr ∧
    (routeKey (mkChrSet ["chr1"]) "chr1" true = "chr1" ↔
      (true = true ∧ lookupBool (mkChrSet ["chr1"]) "chr1" = true)) := by
  refine ⟨?_, ?_, ?_⟩
  · exact (claim2_routeKey_correct (mkChrSet ["chr1"]) "chr1" true).1 ⟨rfl, by decide⟩
  · exact (claim2_routeKey_correct (mkChrSet ["chr1"]) "chr9" true).2.1 (by decide)
  · exact (claim2_routeKey_correct (mkChrSet ["chr1"]) "chr1" true).2.2 (by decide)

/-- C3 counterexample: the sentinel file is not named "<prefix>_unknown.jsonl"
as the claim states: on a run with prefix "out" the unmatched record [2] lands
in "out_unknown_chr.jsonl" and no file "out_unknown.jsonl" exists. -/
theorem claim3_counterexample :
    mapLookup (ProcessFile (NewChromosomeProcessor "in.jsonl" "out" "chr" ["chr1"])
      gW okW true [[2]] []).1.fs "out_unknown.jsonl" = none ∧
    mapLookup (ProcessFile (NewChromosomeProcessor "in.jsonl" "out" "chr" ["chr1"])
      gW okW true [[2]] []).1.fs "out_unknown_chr.jsonl" = some [2, 10] := by
  decide

/-- C3 (amended): every output file is named "<prefix>_<category>.jsonl" with
the sentinel file named "<prefix>_unknown_chr.jsonl" (not "_unknown.jsonl"),
and every record whose field is absent or whose value is not among the
declared categories is routed to the sentinel and written to that file. -/
theorem claim3_unknown_file (iF pfx field : String) (ns : List String)
    (g : Gjson) (createOK : String → Bool) (input : List Line)
    (fs0 : List (String × Line))
    (hc : ∀ c ∈ allChrs (NewChromosomeProcessor iF pfx field ns),
      createOK (outFileName pfx c) = true)
    (hlen : ∀ l ∈ input, l.length ≤ maxLineSize) :
    outFileName pfx UnknownChr = pfx ++ "_unknown_chr.jsonl" ∧
    (∀ l : Line,
      ¬ ((ExtractChromosome g (NewChromosomeProcessor iF pfx field ns) l).2 = true ∧
          (ExtractChromosome g (NewChromosomeProcessor iF pfx field ns) l).1 ∈ ns) →
      routeLine (NewChromosomeProcessor iF pfx field ns) g l = UnknownChr) ∧
    (∃ st, ProcessFile (NewChromosomeProcessor iF pfx field ns) g createOK true input fs0 =
        (st, none) ∧
      mapLookup st.fs (pfx ++ "_unknown_chr.jsonl") =
        some (withNl (routedLines (NewChromosomeProcessor iF pfx field ns) g input UnknownChr))) := by
  refine ⟨outFileName_unknown pfx, ?_, ?_⟩
  · intro l h
    set cp := NewChromosomeProcessor iF pfx field ns with hcp
    have he : routeLine cp g l =
        routeKey cp.chrSet (ExtractChromosome g cp l).1 (ExtractChromosome g cp l).2 := rfl
    have hb : ¬ (((ExtractChromosome g cp l).2 &&
        lookupBool cp.chrSet (ExtractChromosome g cp l).1) = true) := by
      intro hb
      rw [Bool.and_eq_true] at hb
      exact h ⟨hb.1, (lookupBool_mkChrSet ns _).1 hb.2⟩
    rw [he, routeKey, if_neg hb]
  · obtain ⟨st, h1, h2, _, _, _⟩ :=
      run_success_char (NewChromosomeProcessor iF pfx field ns) g createOK input fs0 rfl hc hlen
    have hu : UnknownChr ∈ allChrs (NewChromosomeProcessor iF pfx field ns) := by
      simp [allChrs]
    refine ⟨st, h1, ?_⟩
    rw [← outFileName_unknown pfx]
    exact h2 UnknownChr hu

/-- Witness for C3: the amended theorem evaluated on a concrete run with one
matched and one unmatched record. -/
theorem claim3_unknown_file_witness :
    outFileName "out" UnknownChr = "out" ++ "_unknown_chr.jsonl" ∧
    (∀ l : Line,
      ¬ ((ExtractChromosome gW (NewChromosomeProcessor "in.jsonl" "out" "chr" ["chr1"]) l).2 = true ∧
          (ExtractChromosome gW (NewChromosomeProcessor "in.jsonl" "out" "chr" ["chr1"]) l).1 ∈ ["chr1"]) →
      routeLine (NewChromosomeProcessor "in.jsonl" "out" "chr" ["chr1"]) gW l = UnknownChr) ∧
    (∃ st, ProcessFile (NewChromosomeProcessor "in.jsonl" "out" "chr" ["chr1"]) gW okW true
        [[1], [2]] [] = (st, none) ∧
      mapLookup st.fs ("out" ++ "_unknown_chr.jsonl") =
        some (withNl (routedLines (NewChromosomeProcessor "in.jsonl" "out" "chr" ["chr1"])
          gW [[1], [2]] UnknownChr))) :=
  claim3_unknown_file "in.jsonl" "out" "chr" ["chr1"] gW okW [[1], [2]] []
    (by decide) (by decide)

/-- C6: after a successful initialize there is a writer, an open stream and an
empty on-disk file for every declared category plus the sentinel, all created
before any input record is read (InitializeOutputFiles consumes no input),
and the sentinel is a member of the created set for every declared list, so
its presence does not depend on what the user declares. -/
theorem claim6_init_creates_all (iF pfx field : String) (ns : List String)
    (createOK : String → Bool) (fs0 : List (String × Line))
    (hc : ∀ c ∈ allChrs (NewChromosomeProcessor iF pfx field ns),
      createOK (outFileName pfx c) = true) :
    ∃ st, InitializeOutputFiles createOK (NewChromosomeProcessor iF pfx field ns)
        (initState fs0) = (st, true) ∧
      (∀ c ∈ allChrs (NewChromosomeProcessor iF pfx field ns),
        mapLookup st.outputWriters c = some [] ∧
        mapLookup st.fs (outFileName pfx c) = some [] ∧
        (mapLookup st.outputFiles c).isSome = true) ∧
      UnknownChr ∈ allChrs (NewChromosomeProcessor iF pfx field ns) := by
  refine ⟨initInserts pfx (allChrs (NewChromosomeProcessor iF pfx field ns)) (initState fs0),
    ?_, ?_, ?_⟩
  · rw [InitializeOutputFiles,
      initLoop_ok ((NewChromosomeProcessor iF pfx field ns).pfx) createOK _ _ hc]
    rfl
  · intro c hcm
    refine ⟨?_, ?_, ?_⟩
    · rw [initInserts_writers_lookup, if_pos hcm]
    · rw [initInserts_fs_lookup, if_pos (any_outFileName_self pfx _ c hcm)]
    · exact (initInserts_files_lookup pfx _ _ c).2 (Or.inl hcm)
  · simp [allChrs]

/-- Witness for C6: the theorem evaluated at a concrete configuration. -/
theorem claim6_init_creates_all_witness :
    ∃ st, InitializeOutputFiles okW (NewChromosomeProcessor "in.jsonl" "out" "chr" ["chr1"])
        (initState []) = (st, true) ∧
      (∀ c ∈ allChrs (NewChromosomeProcessor "in.jsonl" "out" "chr" ["chr1"]),
        mapLookup st.outputWriters c = some [] ∧
        mapLookup st.fs (outFileName "out" c) = some [] ∧
        (mapLookup st.outputFiles c).isSome = true) ∧
      UnknownChr ∈ allChrs (NewChromosomeProcessor "in.jsonl" "out" "chr" ["chr1"]) :=
  claim6_init_creates_all "in.jsonl" "out" "chr" ["chr1"] okW [] (by decide)

/-- C7: a fully blank input line (zero bytes) is written to no output file and
has no effect on the run: processing any input gives exactly the same result,
error included, as processing the input with all blank lines removed. -/
theorem claim7_blank_skipped (cp : ChromosomeProcessor) (g : Gjson)
    (createOK : String → Bool) (inputOK : Bool) (input : List Line)
    (fs0 : List (String × Line)) :
    ProcessFile cp g createOK inputOK (input.filter (fun l => !(l.length == 0))) fs0 =
      ProcessFile cp g createOK inputOK input fs0 :=
  ProcessFile_filter_blank cp g createOK inputOK input fs0

/-- C8: the field extractor returns found = false exactly when the gjson
lookup reports that the record does not resolve (the record is not valid JSON
or the path is absent), returns the value's string form with found = true
otherwise, and is a pure function of its inputs. The gjson library itself is
external to this repository and is modelled by its contract. -/
theorem claim8_extract_correct (g : Gjson) (cp : ChromosomeProcessor) (line : Line) :
    ((ExtractChromosome g cp line).2 = (g cp.chrFieldName line).resExists) ∧
    ((g cp.chrFieldName line).resExists = true →
      ExtractChromosome g cp line = ((g cp.chrFieldName line).str, true)) ∧
    ((g cp.chrFieldName line).resExists = false →
      ExtractChromosome g cp line = ("", false)) := by
  cases hres : (g cp.chrFieldName line).resExists
  · refine ⟨?_, ?_, ?_⟩
    · simp [ExtractChromosome, hres]
    · intro h
      exact Bool.noConfusion h
    · intro _
      simp [ExtractChromosome, hres]
  · refine ⟨?_, ?_, ?_⟩
    · simp [ExtractChromosome, hres]
    · intro _
      simp [ExtractChromosome, hres]
    · intro h
      exact Bool.noConfusion h

/-- Witness for C8: the theorem evaluated at concrete records, one that
resolves and one that does not. -/
theorem claim8_extract_correct_witness :
    ExtractChromosome gW (NewChromosomeProcessor "in.jsonl" "out" "chr" ["chr1"]) [1] =
      ("chr1", true) ∧
    ExtractChromosome gW (NewChromosomeProcessor "in.jsonl" "out" "chr" ["chr1"]) [2] =
      ("", false) := by
  constructor
  · have h := (claim8_extract_correct gW
      (NewChromosomeProcessor "in.jsonl" "out" "chr" ["chr1"]) [1]).2.1 (by decide)
    rw [h]
    decide
  · exact (claim8_extract_correct gW
      (NewChromosomeProcessor "in.jsonl" "out" "chr" ["chr1"]) [2]).2.2 (by decide)

/-- C1: on a successful run every non-blank input line is written, byte for
byte followed by exactly one newline byte, to exactly the output file its
routing key selects, each file holds exactly the lines routed to it in input
order, so the output files are disjoint and exhaustive over the non-blank
input lines and the line counts of the distinct output files sum to the
number of non-blank input lines. -/
theorem claim1_partition_order (iF pfx field : String) (ns : List String)
    (g : Gjson) (createOK : String → Bool) (input : List Line)
    (fs0 : List (String × Line))
    (hc : ∀ c ∈ allChrs (NewChromosomeProcessor iF pfx field ns),
      createOK (outFileName pfx c) = true)
    (hlen : ∀ l ∈ input, l.length ≤ maxLineSize) :
    ∃ st, ProcessFile (NewChromosomeProcessor iF pfx field ns) g createOK true input fs0 =
        (st, none) ∧
      (∀ c ∈ allChrs (NewChromosomeProcessor iF pfx field ns),
        mapLookup st.fs (outFileName pfx c) =
          some (withNl (routedLines (NewChromosomeProcessor iF pfx field ns) g input c))) ∧
      ((((allChrs (NewChromosomeProcessor iF pfx field ns)).dedup).map
          (fun c => (routedLines (NewChromosomeProcessor iF pfx field ns) g input c).length)).sum =
        (input.filter (fun l => !(l.length == 0))).length) := by
  obtain ⟨st, h1, h2, _, _, _⟩ :=
    run_success_char (NewChromosomeProcessor iF pfx field ns) g createOK input fs0 rfl hc hlen
  exact ⟨st, h1, h2, routed_partition _ g input rfl hlen⟩

/-- Witness for C1: the theorem evaluated on a concrete two-line input, one
record matching "chr1" and one routed to the sentinel. -/
theorem claim1_partition_order_witness :
    ∃ st, ProcessFile (NewChromosomeProcessor "in.jsonl" "out" "chr" ["chr1"])
        gW okW true [[1], [2]] [] = (st, none) ∧
      (∀ c ∈ allChrs (NewChromosomeProcessor "in.jsonl" "out" "chr" ["chr1"]),
        mapLookup st.fs (outFileName "out" c) =
          some (withNl (routedLines (NewChromosomeProcessor "in.jsonl" "out" "chr" ["chr1"])
            gW [[1], [2]] c))) ∧
      ((((allChrs (NewChromosomeProcessor "in.jsonl" "out" "chr" ["chr1"])).dedup).map
          (fun c => (routedLines (NewChromosomeProcessor "in.jsonl" "out" "chr" ["chr1"])
            gW [[1], [2]] c).length)).sum =
        (([[1], [2]] : List Line).filter (fun l => !(l.length == 0))).length) :=
  claim1_partition_order "in.jsonl" "out" "chr" ["chr1"] gW okW [[1], [2]] []
    (by decide) (by decide)

/-- C4: an input containing a line longer than the 10 MB scan buffer makes the
whole run fail: ProcessFile surfaces the error, the oversized line is not
skipped and nothing after it is processed (the output files contain exactly
the lines routed before the oversized one), while every output stream is
flushed (all buffers empty, buffered lines on disk) and every stream in the
map is closed before the error is surfaced. -/
theorem claim4_oversized_fatal (iF pfx field : String) (ns : List String)
    (g : Gjson) (createOK : String → Bool) (fs0 : List (String × Line))
    (pre : List Line) (l : Line) (post : List Line)
    (hc : ∀ c ∈ allChrs (NewChromosomeProcessor iF pfx field ns),
      createOK (outFileName pfx c) = true)
    (hpre : ∀ a ∈ pre, a.length ≤ maxLineSize) (hl : maxLineSize < l.length) :
    ∃ st, ProcessFile (NewChromosomeProcessor iF pfx field ns) g createOK true
        (pre ++ l :: post) fs0 = (st, some PErr.lineTooLong) ∧
      (∀ c ∈ allChrs (NewChromosomeProcessor iF pfx field ns),
        mapLookup st.fs (outFileName pfx c) =
          some (withNl (routedLines (NewChromosomeProcessor iF pfx field ns) g pre c))) ∧
      (∀ p ∈ st.outputWriters, p.2 = ([] : Line)) ∧
      (∀ k h0, mapLookup st.outputFiles k = some h0 → h0 ∉ st.openHandles) := by
  obtain ⟨st, h1, h2, _, h4, h5⟩ :=
    run_oversized_char (NewChromosomeProcessor iF pfx field ns) g createOK fs0 pre l post
      rfl hc hpre hl
  exact ⟨st, h1, h2, h4, h5⟩

/-- Witness for C4: the theorem evaluated on a concrete input whose second
line is one byte longer than the scan buffer. -/
theorem claim4_oversized_fatal_witness :
    ∃ st, ProcessFile (NewChromosomeProcessor "in.jsonl" "out" "chr" ["chr1"])
        gW okW true ([[1]] ++ List.replicate (maxLineSize + 1) 0 :: [[2]]) [] =
        (st, some PErr.lineTooLong) ∧
      (∀ c ∈ allChrs (NewChromosomeProcessor "in.jsonl" "out" "chr" ["chr1"]),
        mapLookup st.fs (outFileName "out" c) =
          some (withNl (routedLines (NewChromosomeProcessor "in.jsonl" "out" "chr" ["chr1"])
            gW [[1]] c))) ∧
      (∀ p ∈ st.outputWriters, p.2 = ([] : Line)) ∧
      (∀ k h0, mapLookup st.outputFiles k = some h0 → h0 ∉ st.openHandles) :=
  claim4_oversized_fatal "in.jsonl" "out" "chr" ["chr1"] gW okW [] [[1]]
    (List.replicate (maxLineSize + 1) 0) [[2]] (by decide) (by decide)
    (by rw [List.length_replicate]; exact Nat.lt_succ_self _)

/-- C5 counterexample: the claim "no open handle remains" fails for a
duplicate declared list: with categories ["a", "a", "b"] and creation failing
on "p_b.jsonl", the handle of the first "a" file was overwritten in the map
and is still open (handle id 0) when the creation error is surfaced. -/
theorem claim5_counterexample :
    (ProcessFile (NewChromosomeProcessor "in.jsonl" "p" "chr" ["a", "a", "b"])
      gW okFail5 true [] []).2 = some PErr.createFailed ∧
    (ProcessFile (NewChromosomeProcessor "in.jsonl" "p" "chr" ["a", "a", "b"])
      gW okFail5 true [] []).1.openHandles = [0] ∧
    (ProcessFile (NewChromosomeProcessor "in.jsonl" "p" "chr" ["a", "a", "b"])
      gW okFail5 true [] []).1.openHandles ≠ [] := by
  decide

/-- C5 (amended: restricted to duplicate-free declared lists): when a creation
fails during initialization, ProcessFile surfaces the creation error, every
previously created resource is flushed and released (no open handle remains,
all buffers empty), and the run aborts before reading any input: its result
does not depend on the extractor, the input lines or the input-open status. -/
theorem claim5_init_failure_cleanup (iF pfx field : String) (ns : List String)
    (g : Gjson) (createOK : String → Bool) (inputOK : Bool) (input : List Line)
    (fs0 : List (String × Line)) (hnd : ns.Nodup)
    (hfail : ∃ c ∈ allChrs (NewChromosomeProcessor iF pfx field ns),
      createOK (outFileName pfx c) = false) :
    ∃ st, ProcessFile (NewChromosomeProcessor iF pfx field ns) g createOK inputOK input fs0 =
        (st, some PErr.createFailed) ∧
      st.openHandles = [] ∧ (∀ p ∈ st.outputWriters, p.2 = ([] : Line)) ∧
      (∀ g2 : Gjson, ∀ inputOK2 : Bool, ∀ input2 : List Line,
        ProcessFile (NewChromosomeProcessor iF pfx field ns) g2 createOK inputOK2 input2 fs0 =
          (st, some PErr.createFailed)) :=
  run_initfail_char (NewChromosomeProcessor iF pfx field ns) g createOK inputOK input fs0
    hnd hfail

/-- Witness for C5: the amended theorem evaluated at a duplicate-free list
whose second category cannot be created. -/
theorem claim5_init_failure_cleanup_witness :
    ∃ st, ProcessFile (NewChromosomeProcessor "in.jsonl" "p" "chr" ["a", "b"])
        gW okFail5 true [[1]] [] = (st, some PErr.createFailed) ∧
      st.openHandles = [] ∧ (∀ p ∈ st.outputWriters, p.2 = ([] : Line)) ∧
      (∀ g2 : Gjson, ∀ inputOK2 : Bool, ∀ input2 : List Line,
        ProcessFile (NewChromosomeProcessor "in.jsonl" "p" "chr" ["a", "b"]) g2 okFail5
          inputOK2 input2 [] = (st, some PErr.createFailed)) :=
  claim5_init_failure_cleanup "in.jsonl" "p" "chr" ["a", "b"] gW okFail5 true [[1]] []
    (by decide) (by decide)

/-- C9: running the router twice with the same input, configuration and
prefix overwrites the first run's outputs rather than appending to them: the
second run succeeds and leaves every file of the file system byte-identical
to what the first run left. -/
theorem claim9_rerun_idempotent (iF pfx field : String) (ns : List String)
    (g : Gjson) (createOK : String → Bool) (input : List Line)
    (fs0 : List (String × Line))
    (hc : ∀ c ∈ allChrs (NewChromosomeProcessor iF pfx field ns),
      createOK (outFileName pfx c) = true)
    (hlen : ∀ l ∈ input, l.length ≤ maxLineSize) :
    ∃ st1 st2,
      ProcessFile (NewChromosomeProcessor iF pfx field ns) g createOK true input fs0 =
        (st1, none) ∧
      ProcessFile (NewChromosomeProcessor iF pfx field ns) g createOK true input st1.fs =
        (st2, none) ∧
      (∀ f, mapLookup st2.fs f = mapLookup st1.fs f) := by
  obtain ⟨st1, h1, h2, h3, _, _⟩ :=
    run_success_char (NewChromosomeProcessor iF pfx field ns) g createOK input fs0 rfl hc hlen
  obtain ⟨st2, g1, g2, g3, _, _⟩ :=
    run_success_char (NewChromosomeProcessor iF pfx field ns) g createOK input st1.fs rfl hc hlen
  refine ⟨st1, st2, h1, g1, ?_⟩
  intro f
  by_cases hf : isOutFile (NewChromosomeProcessor iF pfx field ns) f = true
  · rw [isOutFile] at hf
    obtain ⟨c, hcm, hbeq⟩ := List.any_eq_true.1 hf
    have hfe : outFileName (NewChromosomeProcessor iF pfx field ns).pfx c = f := by
      simpa using hbeq
    rw [← hfe, g2 c hcm, h2 c hcm]
  · have hf2 : isOutFile (NewChromosomeProcessor iF pfx field ns) f = false := by
      cases h : isOutFile (NewChromosomeProcessor iF pfx field ns) f
      · rfl
      · exact absurd h hf
    rw [g3 f hf2, h3 f hf2]

/-- Witness for C9: the theorem evaluated on a concrete run repeated twice. -/
theorem claim9_rerun_idempotent_witness :
    ∃ st1 st2,
      ProcessFile (NewChromosomeProcessor "in.jsonl" "out" "chr" ["chr1"]) gW okW true
        [[1], [2]] [] = (st1, none) ∧
      ProcessFile (NewChromosomeProcessor "in.jsonl" "out" "chr" ["chr1"]) gW okW true
        [[1], [2]] st1.fs = (st2, none) ∧
      (∀ f, mapLookup st2.fs f = mapLookup st1.fs f) :=
  claim9_rerun_idempotent "in.jsonl" "out" "chr" ["chr1"] gW okW [[1], [2]] []
    (by decide) (by decide)

/-- C10: duplicate names in the declared category list do not change any
output: processing with the list and processing with its duplicate-free form
leave every file of the file system with identical contents, because the
membership set and the category-to-stream map keep one entry per distinct
name. -/
theorem claim10_duplicates_irrelevant (iF pfx field : String) (ns : List String)
    (g : Gjson) (createOK : String → Bool) (input : List Line)
    (fs0 : List (String × Line))
    (hc : ∀ c ∈ allChrs (NewChromosomeProcessor iF pfx field ns),
      createOK (outFileName pfx c) = true)
    (hlen : ∀ l ∈ input, l.length ≤ maxLineSize) :
    ∃ st std,
      ProcessFile (NewChromosomeProcessor iF pfx field ns) g createOK true input fs0 =
        (st, none) ∧
      ProcessFile (NewChromosomeProcessor iF pfx field ns.dedup) g createOK true input fs0 =
        (std, none) ∧
      (∀ f, mapLookup std.fs f = mapLookup st.fs f) := by
  have hcd : ∀ c ∈ allChrs (NewChromosomeProcessor iF pfx field ns.dedup),
      createOK (outFileName pfx c) = true :=
    fun c hcm => hc c ((allChrs_dedup_mem iF pfx field ns c).1 hcm)
  obtain ⟨st, h1, h2, h3, _, _⟩ :=
    run_success_char (NewChromosomeProcessor iF pfx field ns) g createOK input fs0 rfl hc hlen
  obtain ⟨std, g1, g2, g3, _, _⟩ :=
    run_success_char (NewChromosomeProcessor iF pfx field ns.dedup) g createOK input fs0
      rfl hcd hlen
  refine ⟨st, std, h1, g1, ?_⟩
  intro f
  by_cases hf : isOutFile (NewChromosomeProcessor iF pfx field ns) f = true
  · rw [isOutFile] at hf
    obtain ⟨c, hcm, hbeq⟩ := List.any_eq_true.1 hf
    have hfe : outFileName pfx c = f := by simpa using hbeq
    have hcmd : c ∈ allChrs (NewChromosomeProcessor iF pfx field ns.dedup) :=
      (allChrs_dedup_mem iF pfx field ns c).2 hcm
    have h2c := h2 c hcm
    rw [show (NewChromosomeProcessor iF pfx field ns).pfx = pfx from rfl] at h2c
    have g2c := g2 c hcmd
    rw [show (NewChromosomeProcessor iF pfx field ns.dedup).pfx = pfx from rfl] at g2c
    rw [← hfe, g2c, h2c, routedLines_dedup]
  · have hf2 : isOutFile (NewChromosomeProcessor iF pfx field ns) f = false := by
      cases h : isOutFile (NewChromosomeProcessor iF pfx field ns) f
      · rfl
      · exact absurd h hf
    have hfd : isOutFile (NewChromosomeProcessor iF pfx field ns.dedup) f = false := by
      rw [isOutFile_dedup]
      exact hf2
    rw [g3 f hfd, h3 f hf2]

/-- Witness for C10: the theorem evaluated at a list with a duplicated name. -/
theorem claim10_duplicates_irrelevant_witness :
    ∃ st std,
      ProcessFile (NewChromosomeProcessor "in.jsonl" "out" "chr" ["chr1", "chr1"]) gW okW
        true [[1], [2]] [] = (st, none) ∧
      ProcessFile (NewChromosomeProcessor "in.jsonl" "out" "chr" (["chr1", "chr1"] : List String).dedup)
        gW okW true [[1], [2]] [] = (std, none) ∧
      (∀ f, mapLookup std.fs f = mapLookup st.fs f) :=
  claim10_duplicates_irrelevant "in.jsonl" "out" "chr" ["chr1", "chr1"] gW okW
    [[1], [2]] [] (by decide) (by decide)

end ChrSplit
